import Mathlib

/-!
Shallow embedding of libsolidity ControlFlowAnalyzer.cpp
(ControlFlowAnalyzer::analyze, ControlFlowAnalyzer::visit and
ControlFlowAnalyzer::checkUninitializedAccess), together with proofs
about the embedded definitions.

Modelling conventions:
* C++ pointers to AST objects are modelled by records carrying a numeric
  id; two occurrences are the same object exactly when the records are
  equal (the oid field plays the role of the object address).
* std::set is modelled by a duplicate-free List; insertion appends a new
  element at the back when it is not yet present, and set union inserts
  the elements of the right operand one by one.  Size comparisons of the
  C++ code become length comparisons.
* std::map from CFGNode pointers to NodeInfo is modelled by an
  association list keyed by node id, with operator-bracket defaulting to
  an empty NodeInfo.
* std::stack of CFGNode pointers is a List Nat with the head as top.
* The unbounded while loop of checkUninitializedAccess is written with
  an explicit fuel parameter; one unit of fuel is one loop iteration.
-/

namespace ControlFlowAnalyzerModel

/-- A local variable declaration: stable AST id, source location of the
declaration, and whether the type of the declared variable is stored in
DataLocation.Storage (the only data the analyzer reads from the type). -/
structure VariableDeclaration where
  id : Nat
  location : Nat
  storage : Bool
deriving DecidableEq

/-- An AST node usable as a source location anchor: stable id plus a
source location. -/
structure SyntaxNode where
  id : Nat
  location : Nat
deriving DecidableEq

/-- The four variants of VariableOccurrence.Kind that
checkUninitializedAccess switches over. -/
inductive OccurrenceKind where
  | Declaration
  | Assignment
  | InlineAssembly
  | Access
deriving DecidableEq

/-- Modelled from the spec: the numeric ordinal of the
VariableOccurrence.Kind enumeration, used by the sort comparator as the
final tie break (the enum itself is declared in
libsolidity/analysis/ControlFlowGraph.h, which is not among the provided
sources; the spec data model lists the kinds in the order Declaration,
Assignment, InlineAssembly, Access). -/
def OccurrenceKind.ordinal : OccurrenceKind → Nat
  | .Declaration => 0
  | .Assignment => 1
  | .InlineAssembly => 2
  | .Access => 3

/-- One VariableOccurrence object.  The oid field models the identity of
the C++ object (its address); kind, declaration and occurrence model the
accessors kind(), declaration() and occurrence(), the last being the
optional back reference to the syntax node where the occurrence
happened. -/
structure VariableOccurrence where
  oid : Nat
  kind : OccurrenceKind
  declaration : VariableDeclaration
  occurrence : Option SyntaxNode
deriving DecidableEq

/-- A CFG basic block: its id, the ordered variable occurrences and the
ids of its successor blocks (the exits vector). -/
structure CFGNode where
  id : Nat
  variableOccurrences : List VariableOccurrence
  exits : List Nat
deriving DecidableEq

/-- A function flow: the blocks of the graph and the ids of the entry
and exit nodes handed to checkUninitializedAccess. -/
structure CFG where
  nodes : List CFGNode
  entry : Nat
  exitNode : Nat
deriving DecidableEq

/-- Dereference a node id inside a graph; ids that denote no block of
the graph yield an inert empty block, which is never reached when the
graph is well formed. -/
def CFG.node (g : CFG) (i : Nat) : CFGNode :=
  match g.nodes.find? (fun n => n.id == i) with
  | some n => n
  | none => ⟨i, [], []⟩

/-- std::set insertion on the duplicate-free list model: append the
element when it is not yet present. -/
def listInsert {α : Type} [DecidableEq α] (l : List α) (a : α) : List α :=
  if a ∈ l then l else l ++ [a]

/-- std::set union (operator +=): insert every element of the right
operand into the left operand. -/
def listUnion {α : Type} [DecidableEq α] (l r : List α) : List α :=
  r.foldl listInsert l

/-- The per-node analysis state of checkUninitializedAccess: the set of
possibly unassigned declarations and the set of accesses of unassigned
storage variables seen on some path. -/
structure NodeInfo where
  unassignedVariables : List VariableDeclaration
  uninitializedVariableAccesses : List VariableOccurrence
deriving DecidableEq

/-- NodeInfo.propagateFrom: union the incoming information into this
node and report whether either component strictly grew (the C++ code
compares the set sizes before and after the union). -/
def NodeInfo.propagateFrom (self entryInfo : NodeInfo) : NodeInfo × Bool :=
  let u := listUnion self.unassignedVariables entryInfo.unassignedVariables
  let p := listUnion self.uninitializedVariableAccesses entryInfo.uninitializedVariableAccesses
  (⟨u, p⟩,
    decide (self.unassignedVariables.length < u.length) ||
    decide (self.uninitializedVariableAccesses.length < p.length))

/-- One arm of the switch over variableOccurrence.kind() inside the
worklist loop, applied to the running NodeInfo. -/
def transferStep (info : NodeInfo) (v : VariableOccurrence) : NodeInfo :=
  match v.kind with
  | .Assignment =>
      { info with unassignedVariables := info.unassignedVariables.erase v.declaration }
  | .InlineAssembly =>
      { info with unassignedVariables := info.unassignedVariables.erase v.declaration }
  | .Access =>
      if v.declaration ∈ info.unassignedVariables then
        if v.declaration.storage then
          { info with uninitializedVariableAccesses :=
              listInsert info.uninitializedVariableAccesses v }
        else info
      else info
  | .Declaration =>
      { info with unassignedVariables := listInsert info.unassignedVariables v.declaration }

/-- The for loop over currentNode.variableOccurrences: process the
occurrences in program order. -/
def transfer (info : NodeInfo) (occs : List VariableOccurrence) : NodeInfo :=
  occs.foldl transferStep info

/-- The nodeInfos map of checkUninitializedAccess: association list from
node id to NodeInfo. -/
abbrev InfoMap : Type := List (Nat × NodeInfo)

/-- map::operator[] read: the stored NodeInfo, or a default-constructed
empty one when the key is absent. -/
def InfoMap.get (m : InfoMap) (k : Nat) : NodeInfo :=
  match m with
  | [] => ⟨[], []⟩
  | (k0, v0) :: rest => if k0 = k then v0 else InfoMap.get rest k

/-- map write: replace the binding of the key, or append a fresh one. -/
def InfoMap.put (m : InfoMap) (k : Nat) (v : NodeInfo) : InfoMap :=
  match m with
  | [] => [(k, v)]
  | (k0, v0) :: rest => if k0 = k then (k, v) :: rest else (k0, v0) :: InfoMap.put rest k v

/-- The mutable state of the worklist loop: the nodeInfos map and the
nodesToTraverse stack (head of the list is the top of the stack). -/
structure AState where
  infos : InfoMap
  stack : List Nat
deriving DecidableEq

/-- Propagate the information of the current node to its exit nodes in
order, pushing every exit whose NodeInfo strictly grew.  The map is
threaded through the iteration, matching the live std::map of the C++
loop. -/
def propagateAll (g : CFG) (info : NodeInfo) :
    List Nat → InfoMap → List Nat → InfoMap × List Nat
  | [], m, st => (m, st)
  | e :: es, m, st =>
      propagateAll g info es (m.put e (NodeInfo.propagateFrom (m.get e) info).1)
        (if (NodeInfo.propagateFrom (m.get e) info).2 then e :: st else st)

/-- One iteration of the worklist loop: pop the top node, run the
transfer over its occurrences writing the result back into the map in
place (the C++ code holds a reference into the map), then propagate to
the exits.  On an empty stack the state is returned unchanged. -/
def stepNode (g : CFG) (s : AState) : AState :=
  match s.stack with
  | [] => s
  | current :: rest =>
      let info1 := transfer (s.infos.get current) (g.node current).variableOccurrences
      let m1 := s.infos.put current info1
      let pr := propagateAll g info1 (g.node current).exits m1 rest
      ⟨pr.1, pr.2⟩

/-- The while loop of checkUninitializedAccess, with explicit fuel: run
up to fuel iterations, stopping early when the stack is empty. -/
def loopFuel (g : CFG) : Nat → AState → AState
  | 0, s => s
  | Nat.succ n, s =>
      match s.stack with
      | [] => s
      | _ :: _ => loopFuel g n (stepNode g s)

/-- The initial loop state: empty map, entry node pushed. -/
def initState (g : CFG) : AState := ⟨[], [g.entry]⟩

/-- The sort comparator of checkUninitializedAccess, translated
branch for branch from the C++ lambda. -/
def occLess (lhs rhs : VariableOccurrence) : Bool :=
  match lhs.occurrence, rhs.occurrence with
  | some lo, some ro =>
      if lo.id < ro.id then true
      else if ro.id < lo.id then false
      else
        if lhs.declaration.id < rhs.declaration.id then true
        else if rhs.declaration.id < lhs.declaration.id then false
        else decide (lhs.kind.ordinal < rhs.kind.ordinal)
  | none, some _ => true
  | some _, none => false
  | none, none =>
      if lhs.declaration.id < rhs.declaration.id then true
      else if rhs.declaration.id < lhs.declaration.id then false
      else decide (lhs.kind.ordinal < rhs.kind.ordinal)

/-- The declaration-id and kind-ordinal tie break shared by the two
fall-through branches of the comparator. -/
def declKindLess (lhs rhs : VariableOccurrence) : Bool :=
  if lhs.declaration.id < rhs.declaration.id then true
  else if rhs.declaration.id < lhs.declaration.id then false
  else decide (lhs.kind.ordinal < rhs.kind.ordinal)

/-- The non-strict order induced by the comparator: a may stay before b
exactly when the comparator does not demand b before a.  A sequence is a
valid std::sort output precisely when it is sorted by this relation. -/
def occLE (a b : VariableOccurrence) : Prop := occLess b a = false

instance : DecidableRel occLE := fun a b =>
  inferInstanceAs (Decidable (occLess b a = false))

/-- Sort the pending accesses with the comparator (std::sort call). -/
def orderedAccesses (pending : List VariableOccurrence) : List VariableOccurrence :=
  List.insertionSort occLE pending

/-- One reported error: primary location, secondary source locations
(message and location pairs) and the message text. -/
structure Diagnostic where
  primaryLocation : Nat
  secondary : List (String × Nat)
  message : String
deriving DecidableEq

/-- Build the diagnostic for one pending access, exactly as the emission
loop does: primary location from the bound syntax node when present,
else from the declaration; a single secondary location at the declaration
when a bound syntax node is present. -/
def emitOne (v : VariableOccurrence) : Diagnostic :=
  { primaryLocation :=
      match v.occurrence with
      | some o => o.location
      | none => v.declaration.location
    secondary :=
      match v.occurrence with
      | some _ => [("The variable was declared here.", v.declaration.location)]
      | none => []
    message := "This variable is of storage pointer type and is accessed without prior assignment." }

/-- The diagnostics produced from one enumeration of the pending-access
set: sort, then emit one type error per element. -/
def emitFrom (pending : List VariableOccurrence) : List Diagnostic :=
  (orderedAccesses pending).map emitOne

/-- The occurrences reported by checkUninitializedAccess, in emission
order: the sorted pending accesses of the exit node, guarded by the
emptiness test of the C++ code. -/
def reportedOccurrences (g : CFG) (fuel : Nat) : List VariableOccurrence :=
  if ((loopFuel g fuel (initState g)).infos.get
      g.exitNode).uninitializedVariableAccesses.isEmpty then []
  else orderedAccesses
    ((loopFuel g fuel (initState g)).infos.get g.exitNode).uninitializedVariableAccesses

/-- checkUninitializedAccess as a function from the graph to the emitted
diagnostic sequence. -/
def checkUninitializedAccess (g : CFG) (fuel : Nat) : List Diagnostic :=
  if ((loopFuel g fuel (initState g)).infos.get
      g.exitNode).uninitializedVariableAccesses.isEmpty then []
  else emitFrom
    ((loopFuel g fuel (initState g)).infos.get g.exitNode).uninitializedVariableAccesses

/-- One recorded entry of the error reporter: a severity flag (true for
warning level) and the diagnostic. -/
structure ReportedError where
  isWarningLevel : Bool
  diagnostic : Diagnostic
deriving DecidableEq

/-- The error reporter sink shared across the whole compilation. -/
structure ErrorReporter where
  errors : List ReportedError
deriving DecidableEq

/-- Modelled from the spec: ErrorReporter.typeError (declared in
liblangutil, not among the provided sources) records one error-level
diagnostic in the reporter. -/
def ErrorReporter.typeError (r : ErrorReporter) (d : Diagnostic) : ErrorReporter :=
  ⟨r.errors ++ [⟨false, d⟩]⟩

/-- Modelled from the spec: Error.containsOnlyWarnings (declared in
liblangutil, not among the provided sources) holds exactly when every
recorded entry is warning level. -/
def containsOnlyWarnings (errs : List ReportedError) : Bool :=
  errs.all (fun e => e.isWarningLevel)

/-- A function definition as seen by the visit callback: the
isImplemented flag and the function flow delivered by the CFG. -/
structure FunctionDefinition where
  isImplemented : Bool
  flow : CFG
deriving DecidableEq

/-- The visit callback for one function definition: for an implemented
function, run checkUninitializedAccess on its flow and report every
resulting diagnostic as a type error. -/
def visitFunction (fuel : Nat) (r : ErrorReporter) (fn : FunctionDefinition) : ErrorReporter :=
  if fn.isImplemented then
    (checkUninitializedAccess fn.flow fuel).foldl ErrorReporter.typeError r
  else r

/-- ControlFlowAnalyzer.analyze: traverse the function definitions of
the syntax tree in order, then return containsOnlyWarnings over the
accumulated errors of the reporter, together with the final reporter
state. -/
def analyze (fns : List FunctionDefinition) (fuel : Nat) (r : ErrorReporter) :
    Bool × ErrorReporter :=
  let r2 := fns.foldl (visitFunction fuel) r
  (containsOnlyWarnings r2.errors, r2)

/-- The diagnostics emitted during one analyze call, independently of
the reporter handed in. -/
def analysisDiagnostics (fns : List FunctionDefinition) (fuel : Nat) : List Diagnostic :=
  fns.foldl
    (fun acc fn =>
      acc ++ (if fn.isImplemented then checkUninitializedAccess fn.flow fuel else []))
    []

/-- The lexicographic key realised by the comparator: occurrences
without a bound syntax node rank in front (first component 0), the
remaining components are the syntax node id, the declaration id and the
kind ordinal. -/
def sortKey (v : VariableOccurrence) : Nat × Nat × Nat × Nat :=
  match v.occurrence with
  | none => (0, 0, v.declaration.id, v.kind.ordinal)
  | some o => (1, o.id, v.declaration.id, v.kind.ordinal)

/-- Strict lexicographic comparison of two sort keys. -/
def keyLtB (x y : Nat × Nat × Nat × Nat) : Bool :=
  decide (x.1 < y.1) ||
    (decide (x.1 = y.1) &&
      (decide (x.2.1 < y.2.1) ||
        (decide (x.2.1 = y.2.1) &&
          (decide (x.2.2.1 < y.2.2.1) ||
            (decide (x.2.2.1 = y.2.2.1) && decide (x.2.2.2 < y.2.2.2))))))

/-- Both components of a NodeInfo are duplicate free, as they are for
the std::set representation. -/
def infoWF (i : NodeInfo) : Prop :=
  i.unassignedVariables.Nodup ∧ i.uninitializedVariableAccesses.Nodup

/-- Every NodeInfo stored in the loop state is duplicate free. -/
def stateWF (s : AState) : Prop := ∀ n, infoWF (s.infos.get n)

/-- The successor relation of the graph. -/
def edgeRel (g : CFG) (i j : Nat) : Prop := j ∈ (g.node i).exits

/-- Reachability along successor edges. -/
def reaches (g : CFG) : Nat → Nat → Prop := Relation.ReflTransGen (edgeRel g)

/-! Concrete inputs used by the counterexamples and witnesses. -/

/-- A storage declaration named x in the examples. -/
def dX : VariableDeclaration := ⟨10, 100, true⟩

/-- A storage declaration named y in the examples. -/
def dY : VariableDeclaration := ⟨11, 110, true⟩

/-- Declaration occurrence of x. -/
def declX : VariableOccurrence := ⟨1, .Declaration, dX, none⟩

/-- Declaration occurrence of y. -/
def declY : VariableOccurrence := ⟨2, .Declaration, dY, none⟩

/-- Assignment occurrence of x. -/
def assignX : VariableOccurrence := ⟨3, .Assignment, dX, some ⟨50, 500⟩⟩

/-- Assignment occurrence of y. -/
def assignY : VariableOccurrence := ⟨4, .Assignment, dY, some ⟨51, 510⟩⟩

/-- Access occurrence of x. -/
def accessX : VariableOccurrence := ⟨5, .Access, dX, some ⟨60, 600⟩⟩

/-- Access occurrence of x placed on the reverting branch of
cfgRevert. -/
def accessXRevert : VariableOccurrence := ⟨6, .Access, dX, some ⟨61, 610⟩⟩

/-- A branching graph whose entry declares x and forks into a reverting
block (which reads x and has no successor, so it never reaches the
exit) and an empty block that falls through to the exit. -/
def cfgRevert : CFG :=
  ⟨[⟨0, [declX], [1, 2]⟩,
    ⟨1, [accessXRevert], []⟩,
    ⟨2, [], [3]⟩,
    ⟨3, [], []⟩], 0, 3⟩

/-- A cyclic graph on which the worklist loop never finishes: the entry
declares x and y and feeds two mutually looping blocks, one assigning
only x and one assigning only y; each block keeps re-adding to the other
the declaration that the other erased in place. -/
def oscCfg : CFG :=
  ⟨[⟨0, [declX, declY], [1, 2]⟩,
    ⟨1, [assignX], [2]⟩,
    ⟨2, [assignY], [1]⟩,
    ⟨3, [], []⟩], 0, 3⟩

/-- The loop state of oscCfg after four iterations; two further
iterations reproduce it exactly. -/
def oscS4 : AState := loopFuel oscCfg 4 (initState oscCfg)

/-- Straight-line graph: declare x, read x, fall through to the exit. -/
def cfgStraight : CFG :=
  ⟨[⟨0, [declX, accessX], [1]⟩, ⟨1, [], []⟩], 0, 1⟩

/-- Graph whose middle block assigns x after the entry declared it;
used to exhibit the shrinking unassigned set. -/
def cfgShrink : CFG :=
  ⟨[⟨0, [declX], [1]⟩, ⟨1, [assignX], [2]⟩, ⟨2, [], []⟩], 0, 2⟩

/-- Access occurrence of x bound to a distinct syntax node, placed after
a redeclaration in cfgRedecl. -/
def accessX2 : VariableOccurrence := ⟨7, .Access, dX, some ⟨70, 700⟩⟩

/-- One block containing Assignment of x, then Declaration of x, then
Access of x: the access is preceded by an assignment of the same
declaration and is nevertheless reported. -/
def cfgRedecl : CFG :=
  ⟨[⟨0, [assignX, declX, accessX2], [1]⟩, ⟨1, [], []⟩], 0, 1⟩

/-- An access occurrence with no bound syntax node. -/
def cexNoNode : VariableOccurrence := ⟨8, .Access, dX, none⟩

/-- An access occurrence with a bound syntax node. -/
def cexWithNode : VariableOccurrence := ⟨9, .Access, dX, some ⟨80, 800⟩⟩

/-- A two-node graph whose exit is not reachable from the entry. -/
def cfgUnreachable : CFG := ⟨[⟨0, [], []⟩, ⟨1, [], []⟩], 0, 1⟩

/-- Straight-line graph: declare x, assign x, read x; the read is
preceded by the assignment in the same block and must not be
reported. -/
def cfgAssigned : CFG :=
  ⟨[⟨0, [declX, assignX, accessX], [1]⟩, ⟨1, [], []⟩], 0, 1⟩

/-- A diagnostic standing for an error recorded by an earlier
compilation stage, before analyze is invoked. -/
def priorDiagnostic : Diagnostic := ⟨42, [], "prior stage error"⟩

/-- A reporter already holding one error-level entry when analyze
starts. -/
def preloadedReporter : ErrorReporter := ⟨[⟨false, priorDiagnostic⟩]⟩

/-- A one-function syntax tree whose function body is cfgStraight. -/
def fnsStraight : List FunctionDefinition := [⟨true, cfgStraight⟩]

/-! Lemmas about the list model of std::set. -/

theorem mem_listInsert {α : Type} [DecidableEq α] {l : List α} {a x : α} :
    x ∈ listInsert l a ↔ x ∈ l ∨ x = a := by
  unfold listInsert
  by_cases h : a ∈ l
  · rw [if_pos h]
    constructor
    · exact Or.inl
    · rintro (hx | rfl)
      · exact hx
      · exact h
  · rw [if_neg h]
    simp

theorem subset_listInsert {α : Type} [DecidableEq α] (l : List α) (a : α) :
    l ⊆ listInsert l a := fun _ hx => mem_listInsert.mpr (Or.inl hx)

theorem nodup_listInsert {α : Type} [DecidableEq α] {l : List α} (a : α) (h : l.Nodup) :
    (listInsert l a).Nodup := by
  unfold listInsert
  by_cases ha : a ∈ l
  · rw [if_pos ha]; exact h
  · rw [if_neg ha]
    simp [List.nodup_append, h, ha]

theorem mem_listUnion {α : Type} [DecidableEq α] {r l : List α} {x : α} :
    x ∈ listUnion l r ↔ x ∈ l ∨ x ∈ r := by
  induction r generalizing l with
  | nil => simp [listUnion]
  | cons b bs ih =>
      show x ∈ listUnion (listInsert l b) bs ↔ _
      rw [ih, mem_listInsert]
      simp only [List.mem_cons]
      tauto

theorem subset_listUnion_left {α : Type} [DecidableEq α] (l r : List α) :
    l ⊆ listUnion l r := fun _ hx => mem_listUnion.mpr (Or.inl hx)

theorem nodup_listUnion {α : Type} [DecidableEq α] {r l : List α} (h : l.Nodup) :
    (listUnion l r).Nodup := by
  induction r generalizing l with
  | nil => exact h
  | cons b bs ih => exact ih (nodup_listInsert b h)

/-! Lemmas about the nodeInfos map model. -/

theorem InfoMap.get_put_self (m : InfoMap) (k : Nat) (v : NodeInfo) :
    (m.put k v).get k = v := by
  induction m with
  | nil => simp [InfoMap.put, InfoMap.get]
  | cons p rest ih =>
      obtain ⟨k0, v0⟩ := p
      by_cases h : k0 = k
      · simp [InfoMap.put, InfoMap.get, h]
      · simp [InfoMap.put, InfoMap.get, h, ih]

theorem InfoMap.get_put_ne (m : InfoMap) {k j : Nat} (v : NodeInfo) (h : j ≠ k) :
    (m.put k v).get j = m.get j := by
  induction m with
  | nil =>
      simp only [InfoMap.put, InfoMap.get]
      rw [if_neg (fun hkj : k = j => h hkj.symm)]
  | cons p rest ih =>
      obtain ⟨k0, v0⟩ := p
      by_cases h0 : k0 = k
      · subst h0
        simp only [InfoMap.put, if_pos rfl, InfoMap.get]
        rw [if_neg (fun hkj : k0 = j => h hkj.symm),
          if_neg (fun hkj : k0 = j => h hkj.symm)]
      · simp [InfoMap.put, InfoMap.get, h0, ih]

/-! Lemmas about the fuelled worklist loop. -/

theorem loopFuel_stack_nil {g : CFG} {s : AState} (h : s.stack = []) :
    ∀ n, loopFuel g n s = s
  | 0 => rfl
  | Nat.succ _ => by simp [loopFuel, h]

theorem loopFuel_succ {g : CFG} {s : AState} (h : s.stack ≠ []) (n : Nat) :
    loopFuel g (n + 1) s = loopFuel g n (stepNode g s) := by
  cases hs : s.stack with
  | nil => exact absurd hs h
  | cons c rest => simp [loopFuel, hs]

theorem loopFuel_add (g : CFG) (m n : Nat) (s : AState) :
    loopFuel g (m + n) s = loopFuel g n (loopFuel g m s) := by
  induction m generalizing s with
  | zero => rw [Nat.zero_add]; rfl
  | succ m ih =>
      by_cases h : s.stack = []
      · rw [loopFuel_stack_nil h, loopFuel_stack_nil h, loopFuel_stack_nil h]
      · have harith : m + 1 + n = (m + n) + 1 := by omega
        rw [harith, loopFuel_succ h, loopFuel_succ h, ih]

/-! The comparator realises a lexicographic order on sort keys. -/

theorem keyLtB_iff (x y : Nat × Nat × Nat × Nat) :
    keyLtB x y = true ↔
      (x.1 < y.1 ∨ (x.1 = y.1 ∧ (x.2.1 < y.2.1 ∨ (x.2.1 = y.2.1 ∧
        (x.2.2.1 < y.2.2.1 ∨ (x.2.2.1 = y.2.2.1 ∧ x.2.2.2 < y.2.2.2)))))) := by
  simp [keyLtB]

theorem keyLtB_false_iff (x y : Nat × Nat × Nat × Nat) :
    keyLtB x y = false ↔ ¬ (keyLtB x y = true) := by
  cases h : keyLtB x y <;> simp

theorem keyLtB_asymm {x y : Nat × Nat × Nat × Nat} (h : keyLtB x y = true) :
    keyLtB y x = false := by
  obtain ⟨x1, x2, x3, x4⟩ := x
  obtain ⟨y1, y2, y3, y4⟩ := y
  rw [keyLtB_iff] at h
  rw [keyLtB_false_iff, keyLtB_iff]
  simp at h ⊢
  omega

theorem keyLtB_nle_trans {x y z : Nat × Nat × Nat × Nat}
    (h1 : keyLtB x y = false) (h2 : keyLtB y z = false) : keyLtB x z = false := by
  obtain ⟨x1, x2, x3, x4⟩ := x
  obtain ⟨y1, y2, y3, y4⟩ := y
  obtain ⟨z1, z2, z3, z4⟩ := z
  rw [keyLtB_false_iff, keyLtB_iff] at h1 h2 ⊢
  simp at h1 h2 ⊢
  omega

theorem keyLtB_eq_of_not {x y : Nat × Nat × Nat × Nat}
    (h1 : keyLtB x y = false) (h2 : keyLtB y x = false) : x = y := by
  obtain ⟨x1, x2, x3, x4⟩ := x
  obtain ⟨y1, y2, y3, y4⟩ := y
  rw [keyLtB_false_iff, keyLtB_iff] at h1 h2
  simp at h1 h2 ⊢
  omega

theorem occLess_eq_keyLtB (a b : VariableOccurrence) :
    occLess a b = keyLtB (sortKey a) (sortKey b) := by
  cases ha : a.occurrence with
  | none =>
      cases hb : b.occurrence with
      | none =>
          show occLess a b = _
          simp only [occLess, sortKey, ha, hb, keyLtB]
          by_cases h1 : a.declaration.id < b.declaration.id
          · simp [h1]
          · by_cases h2 : b.declaration.id < a.declaration.id
            · simp [h1, h2]
              omega
            · have h3 : a.declaration.id = b.declaration.id := by omega
              simp [h1, h2, h3]
      | some ob =>
          simp [occLess, sortKey, ha, hb, keyLtB]
  | some oa =>
      cases hb : b.occurrence with
      | none =>
          simp [occLess, sortKey, ha, hb, keyLtB]
      | some ob =>
          simp only [occLess, sortKey, ha, hb, keyLtB]
          by_cases h1 : oa.id < ob.id
          · simp [h1]
          · by_cases h2 : ob.id < oa.id
            · simp [h1, h2]
              omega
            · have h3 : oa.id = ob.id := by omega
              by_cases h4 : a.declaration.id < b.declaration.id
              · simp [h1, h2, h3, h4]
              · by_cases h5 : b.declaration.id < a.declaration.id
                · simp [h1, h2, h3, h4, h5]
                  omega
                · have h6 : a.declaration.id = b.declaration.id := by omega
                  simp [h1, h2, h3, h4, h5, h6]

theorem occLE_total (a b : VariableOccurrence) : occLE a b ∨ occLE b a := by
  unfold occLE
  cases h : occLess b a with
  | false => exact Or.inl rfl
  | true =>
      right
      rw [occLess_eq_keyLtB] at h ⊢
      exact keyLtB_asymm h

theorem occLE_trans (a b c : VariableOccurrence) :
    occLE a b → occLE b c → occLE a c := by
  unfold occLE
  rw [occLess_eq_keyLtB, occLess_eq_keyLtB, occLess_eq_keyLtB]
  exact fun hab hbc => keyLtB_nle_trans hbc hab

theorem sortKey_eq_of_equiv {a b : VariableOccurrence}
    (h1 : occLess a b = false) (h2 : occLess b a = false) : sortKey a = sortKey b := by
  rw [occLess_eq_keyLtB] at h1 h2
  exact keyLtB_eq_of_not h1 h2

/-- Two sorted enumerations of the same set of occurrences coincide,
provided no two distinct elements share a sort key. -/
theorem sorted_perm_unique :
    ∀ {l1 l2 : List VariableOccurrence}, List.Perm l1 l2 →
      List.Sorted occLE l1 → List.Sorted occLE l2 →
      (∀ x ∈ l1, ∀ y ∈ l1, sortKey x = sortKey y → x = y) → l1 = l2 := by
  intro l1
  induction l1 with
  | nil =>
      intro l2 hp _ _ _
      exact (List.Perm.eq_nil hp.symm).symm
  | cons a t1 ih =>
      intro l2 hp hs1 hs2 hinj
      have ha2 : a ∈ l2 := hp.mem_iff.mp (List.mem_cons_self a t1)
      cases l2 with
      | nil => simp at ha2
      | cons b t2 =>
          have hab : a = b := by
            by_cases h : a = b
            · exact h
            · have hat2 : a ∈ t2 := by
                rcases List.mem_cons.mp ha2 with h1 | h1
                · exact absurd h1 h
                · exact h1
              have hba : occLE b a := List.rel_of_sorted_cons hs2 a hat2
              have hbt1 : b ∈ t1 := by
                have hbmem : b ∈ a :: t1 := hp.symm.mem_iff.mp (List.mem_cons_self b t2)
                rcases List.mem_cons.mp hbmem with h1 | h1
                · exact absurd h1.symm h
                · exact h1
              have hab2 : occLE a b := List.rel_of_sorted_cons hs1 b hbt1
              have hk : sortKey a = sortKey b := by
                unfold occLE at hba hab2
                exact sortKey_eq_of_equiv hba hab2
              exact hinj a (List.mem_cons_self a t1) b (List.mem_cons_of_mem a hbt1) hk
          subst hab
          have hpt : t1.Perm t2 := hp.cons_inv
          have ht : t1 = t2 :=
            ih hpt hs1.of_cons hs2.of_cons
              (fun x hx y hy hk =>
                hinj x (List.mem_cons_of_mem a hx) y (List.mem_cons_of_mem a hy) hk)
          rw [ht]

/-- The emitted diagnostic sequence does not depend on the enumeration
order of the pending-access set: any two enumerations that are
permutations of one another (with sort keys separating distinct
elements) are emitted identically. -/
theorem emitFrom_perm {p1 p2 : List VariableOccurrence} (hp : p1.Perm p2)
    (hinj : ∀ x ∈ p1, ∀ y ∈ p1, sortKey x = sortKey y → x = y) :
    emitFrom p1 = emitFrom p2 := by
  haveI : IsTotal VariableOccurrence occLE := ⟨occLE_total⟩
  haveI : IsTrans VariableOccurrence occLE := ⟨occLE_trans⟩
  have hperm : (orderedAccesses p1).Perm (orderedAccesses p2) :=
    (List.perm_insertionSort occLE p1).trans
      (hp.trans (List.perm_insertionSort occLE p2).symm)
  have heq : orderedAccesses p1 = orderedAccesses p2 :=
    sorted_perm_unique hperm (List.sorted_insertionSort occLE p1)
      (List.sorted_insertionSort occLE p2)
      (fun x hx y hy hk =>
        hinj x ((List.perm_insertionSort occLE p1).mem_iff.mp hx)
          y ((List.perm_insertionSort occLE p1).mem_iff.mp hy) hk)
  unfold emitFrom
  rw [heq]

/-! Lemmas about the transfer function. -/

theorem pending_transferStep_sup (info : NodeInfo) (v : VariableOccurrence) :
    info.uninitializedVariableAccesses ⊆
      (transferStep info v).uninitializedVariableAccesses := by
  unfold transferStep
  cases v.kind
  · exact fun x hx => hx
  · exact fun x hx => hx
  · exact fun x hx => hx
  · by_cases h1 : v.declaration ∈ info.unassignedVariables
    · rw [if_pos h1]
      by_cases h2 : v.declaration.storage
      · rw [if_pos h2]
        exact subset_listInsert _ _
      · rw [if_neg h2]
        exact fun x hx => hx
    · rw [if_neg h1]
      exact fun x hx => hx

theorem pending_transfer_sup (occs : List VariableOccurrence) (info : NodeInfo) :
    info.uninitializedVariableAccesses ⊆
      (transfer info occs).uninitializedVariableAccesses := by
  induction occs generalizing info with
  | nil => exact fun x hx => hx
  | cons v vs ih =>
      exact fun x hx =>
        ih (transferStep info v) (pending_transferStep_sup info v hx)

theorem mem_pending_transferStep {info : NodeInfo} {v x : VariableOccurrence}
    (h : x ∈ (transferStep info v).uninitializedVariableAccesses) :
    x ∈ info.uninitializedVariableAccesses ∨ x = v := by
  unfold transferStep at h
  cases hk : v.kind <;> rw [hk] at h
  · exact Or.inl h
  · exact Or.inl h
  · exact Or.inl h
  · by_cases h1 : v.declaration ∈ info.unassignedVariables
    · rw [if_pos h1] at h
      by_cases h2 : v.declaration.storage
      · rw [if_pos h2] at h
        exact mem_listInsert.mp h
      · rw [if_neg h2] at h
        exact Or.inl h
    · rw [if_neg h1] at h
      exact Or.inl h

theorem mem_pending_transfer {occs : List VariableOccurrence} {info : NodeInfo}
    {x : VariableOccurrence}
    (h : x ∈ (transfer info occs).uninitializedVariableAccesses) :
    x ∈ info.uninitializedVariableAccesses ∨ x ∈ occs := by
  induction occs generalizing info with
  | nil => exact Or.inl h
  | cons v vs ih =>
      rcases ih h with h1 | h1
      · rcases mem_pending_transferStep h1 with h2 | h2
        · exact Or.inl h2
        · exact Or.inr (h2 ▸ List.mem_cons_self v vs)
      · exact Or.inr (List.mem_cons_of_mem v h1)

theorem transferStep_wf {info : NodeInfo} (v : VariableOccurrence)
    (h : infoWF info) : infoWF (transferStep info v) := by
  obtain ⟨hu, hp⟩ := h
  unfold transferStep
  cases v.kind <;> dsimp only
  · exact ⟨nodup_listInsert v.declaration hu, hp⟩
  · exact ⟨hu.erase _, hp⟩
  · exact ⟨hu.erase _, hp⟩
  · by_cases h1 : v.declaration ∈ info.unassignedVariables
    · by_cases h2 : v.declaration.storage = true
      · simp only [if_pos h1, if_pos h2]
        exact ⟨hu, nodup_listInsert v hp⟩
      · simp only [if_pos h1, if_neg h2]
        exact ⟨hu, hp⟩
    · simp only [if_neg h1]
      exact ⟨hu, hp⟩

theorem transfer_wf (occs : List VariableOccurrence) {info : NodeInfo}
    (h : infoWF info) : infoWF (transfer info occs) := by
  induction occs generalizing info with
  | nil => exact h
  | cons v vs ih => exact ih (transferStep_wf v h)

theorem propagateFrom_wf {a b : NodeInfo} (ha : infoWF a) :
    infoWF (NodeInfo.propagateFrom a b).1 :=
  ⟨nodup_listUnion ha.1, nodup_listUnion ha.2⟩

theorem propagateFrom_fst (a b : NodeInfo) :
    (NodeInfo.propagateFrom a b).1 =
      ⟨listUnion a.unassignedVariables b.unassignedVariables,
        listUnion a.uninitializedVariableAccesses b.uninitializedVariableAccesses⟩ := rfl

/-! Lemmas about the propagation over the exits of the current node. -/

theorem propagateAll_get_wf {g : CFG} {info : NodeInfo} :
    ∀ (es : List Nat) (m : InfoMap) (st : List Nat),
      (∀ n, infoWF (m.get n)) → infoWF info →
      ∀ n, infoWF ((propagateAll g info es m st).1.get n) := by
  intro es
  induction es with
  | nil => exact fun m st hm _ => hm
  | cons e es ih =>
      intro m st hm hi
      apply ih _ _ _ hi
      intro n
      by_cases hn : n = e
      · subst hn
        rw [InfoMap.get_put_self]
        exact propagateFrom_wf (hm n)
      · rw [InfoMap.get_put_ne _ _ hn]
        exact hm n

theorem propagateAll_pending_mono {g : CFG} {info : NodeInfo} :
    ∀ (es : List Nat) (m : InfoMap) (st : List Nat) (n : Nat),
      (m.get n).uninitializedVariableAccesses ⊆
        ((propagateAll g info es m st).1.get n).uninitializedVariableAccesses := by
  intro es
  induction es with
  | nil => exact fun m st n x hx => hx
  | cons e es ih =>
      intro m st n x hx
      apply ih
      by_cases hn : n = e
      · subst hn
        rw [InfoMap.get_put_self, propagateFrom_fst]
        exact subset_listUnion_left _ _ hx
      · rw [InfoMap.get_put_ne _ _ hn]
        exact hx

theorem propagateAll_vfree {g : CFG} {info : NodeInfo} {v : VariableOccurrence} :
    ∀ (es : List Nat) (m : InfoMap) (st : List Nat),
      (∀ n, v ∉ (m.get n).uninitializedVariableAccesses) →
      v ∉ info.uninitializedVariableAccesses →
      ∀ n, v ∉ ((propagateAll g info es m st).1.get n).uninitializedVariableAccesses := by
  intro es
  induction es with
  | nil => exact fun m st hm _ => hm
  | cons e es ih =>
      intro m st hm hi
      apply ih _ _ _ hi
      intro n
      by_cases hn : n = e
      · subst hn
        rw [InfoMap.get_put_self, propagateFrom_fst]
        intro hmem
        rcases mem_listUnion.mp hmem with h1 | h1
        · exact hm n h1
        · exact hi h1
      · rw [InfoMap.get_put_ne _ _ hn]
        exact hm n

theorem propagateAll_get_ne {g : CFG} {info : NodeInfo} {n : Nat} :
    ∀ (es : List Nat) (m : InfoMap) (st : List Nat),
      (∀ e ∈ es, e ≠ n) →
      (propagateAll g info es m st).1.get n = m.get n := by
  intro es
  induction es with
  | nil => exact fun m st _ => rfl
  | cons e es ih =>
      intro m st hn
      simp only [propagateAll]
      rw [ih _ _ (fun x hx => hn x (List.mem_cons_of_mem e hx))]
      exact InfoMap.get_put_ne _ _ (fun h => (hn e (List.mem_cons_self e es)) h.symm)

theorem propagateAll_stack_mem {g : CFG} {info : NodeInfo} {n : Nat} :
    ∀ (es : List Nat) (m : InfoMap) (st : List Nat),
      n ∈ (propagateAll g info es m st).2 → n ∈ es ∨ n ∈ st := by
  intro es
  induction es with
  | nil => exact fun m st h => Or.inr h
  | cons e es ih =>
      intro m st h
      rcases ih _ _ h with h1 | h1
      · exact Or.inl (List.mem_cons_of_mem e h1)
      · by_cases hb : (NodeInfo.propagateFrom (m.get e) info).2 = true
        · rw [if_pos hb] at h1
          rcases List.mem_cons.mp h1 with h2 | h2
          · exact Or.inl (h2 ▸ List.mem_cons_self e es)
          · exact Or.inr h2
        · rw [if_neg hb] at h1
          exact Or.inr h1

/-! Lemmas about a single worklist iteration. -/

theorem stepNode_nil {g : CFG} {s : AState} (h : s.stack = []) :
    stepNode g s = s := by
  unfold stepNode
  rw [h]

theorem stepNode_eq {g : CFG} {s : AState} {current : Nat} {rest : List Nat}
    (h : s.stack = current :: rest) :
    stepNode g s =
      ⟨(propagateAll g (transfer (s.infos.get current) (g.node current).variableOccurrences)
          (g.node current).exits
          (s.infos.put current
            (transfer (s.infos.get current) (g.node current).variableOccurrences)) rest).1,
        (propagateAll g (transfer (s.infos.get current) (g.node current).variableOccurrences)
          (g.node current).exits
          (s.infos.put current
            (transfer (s.infos.get current) (g.node current).variableOccurrences)) rest).2⟩ := by
  unfold stepNode
  rw [h]

theorem stepNode_wf {g : CFG} {s : AState} (h : stateWF s) :
    stateWF (stepNode g s) := by
  cases hs : s.stack with
  | nil => rw [stepNode_nil hs]; exact h
  | cons current rest =>
      rw [stepNode_eq hs]
      intro n
      apply propagateAll_get_wf _ _ _ _ (transfer_wf _ (h current))
      intro j
      by_cases hj : j = current
      · subst hj
        rw [InfoMap.get_put_self]
        exact transfer_wf _ (h j)
      · rw [InfoMap.get_put_ne _ _ hj]
        exact h j

theorem stepNode_pending_mono {g : CFG} (s : AState) (n : Nat) :
    (s.infos.get n).uninitializedVariableAccesses ⊆
      ((stepNode g s).infos.get n).uninitializedVariableAccesses := by
  cases hs : s.stack with
  | nil => rw [stepNode_nil hs]; exact fun x hx => hx
  | cons current rest =>
      rw [stepNode_eq hs]
      intro x hx
      apply propagateAll_pending_mono
      by_cases hn : n = current
      · subst hn
        rw [InfoMap.get_put_self]
        exact pending_transfer_sup _ _ hx
      · rw [InfoMap.get_put_ne _ _ hn]
        exact hx

theorem transfer_no_insert {occs : List VariableOccurrence} {info : NodeInfo}
    {v : VariableOccurrence} (hocc : v ∉ occs)
    (hp : v ∉ info.uninitializedVariableAccesses) :
    v ∉ (transfer info occs).uninitializedVariableAccesses := fun h =>
  (mem_pending_transfer h).elim (fun h1 => hp h1) (fun h1 => hocc h1)

theorem stepNode_vfree {g : CFG} {s : AState} {v : VariableOccurrence}
    (hwf : stateWF s)
    (hv : ∀ n, v ∉ (s.infos.get n).uninitializedVariableAccesses)
    (hblk : ∀ c (info : NodeInfo), infoWF info →
        v ∉ info.uninitializedVariableAccesses →
        v ∉ (transfer info (g.node c).variableOccurrences).uninitializedVariableAccesses) :
    ∀ n, v ∉ ((stepNode g s).infos.get n).uninitializedVariableAccesses := by
  cases hs : s.stack with
  | nil => rw [stepNode_nil hs]; exact hv
  | cons current rest =>
      rw [stepNode_eq hs]
      apply propagateAll_vfree
      · intro n
        by_cases hn : n = current
        · subst hn
          rw [InfoMap.get_put_self]
          exact hblk n _ (hwf n) (hv n)
        · rw [InfoMap.get_put_ne _ _ hn]
          exact hv n
      · exact hblk current _ (hwf current) (hv current)

theorem stepNode_reach {g : CFG} {s : AState}
    (h1 : ∀ n ∈ s.stack, reaches g g.entry n)
    (h2 : ∀ n, ¬ reaches g g.entry n → s.infos.get n = ⟨[], []⟩) :
    (∀ n ∈ (stepNode g s).stack, reaches g g.entry n) ∧
      (∀ n, ¬ reaches g g.entry n → (stepNode g s).infos.get n = ⟨[], []⟩) := by
  cases hs : s.stack with
  | nil => rw [stepNode_nil hs]; exact ⟨h1, h2⟩
  | cons current rest =>
      have hc : reaches g g.entry current :=
        h1 current (by rw [hs]; exact List.mem_cons_self current rest)
      rw [stepNode_eq hs]
      constructor
      · intro n hn
        rcases propagateAll_stack_mem _ _ _ hn with he | hr
        · exact Relation.ReflTransGen.tail hc he
        · exact h1 n (by rw [hs]; exact List.mem_cons_of_mem current hr)
      · intro n hn
        have hnc : n ≠ current := fun hq => hn (hq ▸ hc)
        rw [propagateAll_get_ne _ _ _
          (fun e hee heq => hn (by rw [← heq]; exact Relation.ReflTransGen.tail hc hee))]
        rw [InfoMap.get_put_ne _ _ hnc]
        exact h2 n hn

theorem loopFuel_preserve {g : CFG} {P : AState → Prop}
    (hstep : ∀ s, P s → P (stepNode g s)) :
    ∀ (n : Nat) (s : AState), P s → P (loopFuel g n s) := by
  intro n
  induction n with
  | zero => exact fun s h => h
  | succ n ih =>
      intro s h
      cases hs : s.stack with
      | nil => rw [loopFuel_stack_nil hs]; exact h
      | cons c rest =>
          rw [loopFuel_succ (by simp [hs]) n]
          exact ih _ (hstep s h)

/-! The transfer function never flags an access whose declaration was
cleared earlier in the same block. -/

theorem transfer_keeps_out {d : VariableDeclaration} :
    ∀ (occs : List VariableOccurrence) (st : NodeInfo),
      d ∉ st.unassignedVariables →
      (∀ w ∈ occs, w.kind = OccurrenceKind.Declaration → w.declaration ≠ d) →
      d ∉ (transfer st occs).unassignedVariables := by
  intro occs
  induction occs with
  | nil => exact fun st h _ => h
  | cons w ws ih =>
      intro st h hws
      apply ih
      · unfold transferStep
        cases hk : w.kind <;> dsimp only
        · intro hmem
          rcases mem_listInsert.mp hmem with h1 | h1
          · exact h h1
          · exact hws w (List.mem_cons_self w ws) hk h1.symm
        · exact fun hmem => h (List.mem_of_mem_erase hmem)
        · exact fun hmem => h (List.mem_of_mem_erase hmem)
        · by_cases h1 : w.declaration ∈ st.unassignedVariables
          · by_cases h2 : w.declaration.storage = true
            · simp only [if_pos h1, if_pos h2]
              exact h
            · simp only [if_pos h1, if_neg h2]
              exact h
          · simp only [if_neg h1]
            exact h
      · exact fun x hx => hws x (List.mem_cons_of_mem w hx)

theorem transferStep_access_skip {st : NodeInfo} {v : VariableOccurrence}
    (hvkind : v.kind = OccurrenceKind.Access)
    (hd : v.declaration ∉ st.unassignedVariables) :
    transferStep st v = st := by
  unfold transferStep
  rw [hvkind]
  dsimp only
  rw [if_neg hd]

theorem transfer_blocked {v a : VariableOccurrence}
    {l1 l2 l3 : List VariableOccurrence}
    (hkind : a.kind = OccurrenceKind.Assignment ∨ a.kind = OccurrenceKind.InlineAssembly)
    (hdecl : a.declaration = v.declaration)
    (hvkind : v.kind = OccurrenceKind.Access)
    (hnodecl : ∀ w ∈ l2, w.kind = OccurrenceKind.Declaration → w.declaration ≠ v.declaration)
    (hv1 : v ∉ l1) (hv2 : v ∉ l2) (hv3 : v ∉ l3)
    (info : NodeInfo) (hwf : infoWF info)
    (hp : v ∉ info.uninitializedVariableAccesses) :
    v ∉ (transfer info (l1 ++ a :: (l2 ++ v :: l3))).uninitializedVariableAccesses := by
  have hsplit : transfer info (l1 ++ a :: (l2 ++ v :: l3)) =
      transfer (transferStep (transfer
        (transferStep (transfer info l1) a) l2) v) l3 := by
    unfold transfer
    rw [List.foldl_append, List.foldl_cons, List.foldl_append, List.foldl_cons]
  rw [hsplit]
  have h0p : v ∉ (transfer info l1).uninitializedVariableAccesses :=
    transfer_no_insert hv1 hp
  have h0wf : infoWF (transfer info l1) := transfer_wf l1 hwf
  have h1eq : transferStep (transfer info l1) a =
      ⟨(transfer info l1).unassignedVariables.erase v.declaration,
        (transfer info l1).uninitializedVariableAccesses⟩ := by
    rcases hkind with hk | hk <;> (unfold transferStep; rw [hk, hdecl])
  have h1d : v.declaration ∉ (transferStep (transfer info l1) a).unassignedVariables := by
    rw [h1eq]
    exact h0wf.1.not_mem_erase
  have h1p : v ∉ (transferStep (transfer info l1) a).uninitializedVariableAccesses := by
    rw [h1eq]
    exact h0p
  have h2d : v.declaration ∉
      (transfer (transferStep (transfer info l1) a) l2).unassignedVariables :=
    transfer_keeps_out l2 _ h1d hnodecl
  have h2p : v ∉
      (transfer (transferStep (transfer info l1) a) l2).uninitializedVariableAccesses :=
    transfer_no_insert hv2 h1p
  have h3eq : transferStep (transfer (transferStep (transfer info l1) a) l2) v =
      transfer (transferStep (transfer info l1) a) l2 :=
    transferStep_access_skip hvkind h2d
  rw [h3eq]
  exact transfer_no_insert hv3 h2p

/-! The loop state stays well formed and keeps excluded occurrences
out. -/

theorem loopFuel_wf (g : CFG) (fuel : Nat) :
    stateWF (loopFuel g fuel (initState g)) := by
  apply loopFuel_preserve (fun s h => stepNode_wf h)
  intro n
  exact ⟨List.nodup_nil, List.nodup_nil⟩

theorem loopFuel_vfree {g : CFG} {v : VariableOccurrence}
    (hblk : ∀ c (info : NodeInfo), infoWF info →
        v ∉ info.uninitializedVariableAccesses →
        v ∉ (transfer info (g.node c).variableOccurrences).uninitializedVariableAccesses)
    (fuel : Nat) :
    ∀ n, v ∉ ((loopFuel g fuel (initState g)).infos.get n).uninitializedVariableAccesses := by
  have hpres := loopFuel_preserve
    (g := g)
    (P := fun s => stateWF s ∧
      ∀ n, v ∉ (s.infos.get n).uninitializedVariableAccesses)
    (fun s h => ⟨stepNode_wf h.1, stepNode_vfree h.1 h.2 hblk⟩)
  exact (hpres fuel (initState g)
    ⟨fun n => ⟨List.nodup_nil, List.nodup_nil⟩, fun n hmem => by simp [InfoMap.get] at hmem⟩).2

theorem loopFuel_reach_inv (g : CFG) (fuel : Nat) :
    (∀ n ∈ (loopFuel g fuel (initState g)).stack, reaches g g.entry n) ∧
      (∀ n, ¬ reaches g g.entry n →
        (loopFuel g fuel (initState g)).infos.get n = ⟨[], []⟩) := by
  have hpres := loopFuel_preserve
    (g := g)
    (P := fun s => (∀ n ∈ s.stack, reaches g g.entry n) ∧
      (∀ n, ¬ reaches g g.entry n → s.infos.get n = ⟨[], []⟩))
    (fun s h => stepNode_reach h.1 h.2)
  refine hpres fuel (initState g) ⟨?_, ?_⟩
  · intro n hn
    have : n = g.entry := by
      rcases List.mem_cons.mp hn with h1 | h1
      · exact h1
      · simp at h1
    rw [this]
    exact Relation.ReflTransGen.refl
  · intro n _
    rfl

/-! The worklist loop of oscCfg never finishes: after four iterations
the state repeats with period two, with a nonempty stack throughout. -/

theorem osc_cycle : loopFuel oscCfg 2 oscS4 = oscS4 := by decide

theorem osc_even : ∀ k, loopFuel oscCfg (2 * k) oscS4 = oscS4 := by
  intro k
  induction k with
  | zero => rfl
  | succ k ih =>
      have harith : 2 * (k + 1) = 2 + 2 * k := by omega
      rw [harith, loopFuel_add, osc_cycle, ih]

theorem osc_tail_ne : ∀ n, (loopFuel oscCfg n oscS4).stack ≠ [] := by
  intro n
  have hsplit : n = 2 * (n / 2) + n % 2 := by omega
  rw [hsplit, loopFuel_add, osc_even]
  have hmod : n % 2 = 0 ∨ n % 2 = 1 := by omega
  rcases hmod with h | h <;> rw [h] <;> decide

theorem osc_never_empty :
    ∀ n, (loopFuel oscCfg n (initState oscCfg)).stack ≠ [] := by
  intro n
  by_cases h : n < 4
  · interval_cases n <;> decide
  · obtain ⟨m, rfl⟩ := Nat.exists_eq_add_of_le (by omega : 4 ≤ n)
    rw [loopFuel_add]
    exact osc_tail_ne m

/-! The exit of cfgUnreachable is not reachable from its entry, and no
node of the oscillating graph beyond its strongly connected part is. -/

theorem cfgUnreachable_exit_unreachable : ¬ reaches cfgUnreachable 0 1 := by
  intro h
  rcases Relation.ReflTransGen.cases_head h with h0 | ⟨c, hc, _⟩
  · exact absurd h0 (by decide)
  · have : (cfgUnreachable.node 0).exits = [] := rfl
    rw [edgeRel, this] at hc
    simp at hc

theorem oscCfg_exit_unreachable : ¬ reaches oscCfg 0 3 := by
  have hclosed : ∀ x, reaches oscCfg 0 x → x = 0 ∨ x = 1 ∨ x = 2 := by
    intro x h
    induction h with
    | refl => exact Or.inl rfl
    | tail hab hb ih =>
        rename_i b c
        rcases ih with rfl | rfl | rfl
        · have he : (oscCfg.node 0).exits = [1, 2] := rfl
          rw [edgeRel, he] at hb
          rcases List.mem_cons.mp hb with h1 | h1
          · exact Or.inr (Or.inl h1)
          · simp at h1
            exact Or.inr (Or.inr h1)
        · have he : (oscCfg.node 1).exits = [2] := rfl
          rw [edgeRel, he] at hb
          simp at hb
          exact Or.inr (Or.inr hb)
        · have he : (oscCfg.node 2).exits = [1] := rfl
          rw [edgeRel, he] at hb
          simp at hb
          exact Or.inr (Or.inl hb)
  intro h
  rcases hclosed 3 h with h1 | h1 | h1 <;> exact absurd h1 (by decide)

/-! Lemmas about the analyzer driver and the error reporter. -/

theorem foldl_typeError_errors :
    ∀ (ds : List Diagnostic) (r : ErrorReporter),
      (ds.foldl ErrorReporter.typeError r).errors =
        r.errors ++ ds.map (fun d => ReportedError.mk false d) := by
  intro ds
  induction ds with
  | nil => intro r; simp
  | cons d ds ih =>
      intro r
      rw [List.foldl_cons, ih]
      simp [ErrorReporter.typeError]

theorem visitFunction_errors (fuel : Nat) (r : ErrorReporter) (fn : FunctionDefinition) :
    (visitFunction fuel r fn).errors =
      r.errors ++ (if fn.isImplemented then checkUninitializedAccess fn.flow fuel
        else []).map (fun d => ReportedError.mk false d) := by
  unfold visitFunction
  by_cases h : fn.isImplemented = true
  · rw [if_pos h, if_pos h]
    exact foldl_typeError_errors _ r
  · rw [if_neg h, if_neg h]
    simp

theorem analysisDiagnostics_cons (fuel : Nat) (fn : FunctionDefinition)
    (fns : List FunctionDefinition) :
    analysisDiagnostics (fn :: fns) fuel =
      (if fn.isImplemented then checkUninitializedAccess fn.flow fuel else [])
        ++ analysisDiagnostics fns fuel := by
  have aux : ∀ (gs : List FunctionDefinition) (acc : List Diagnostic),
      gs.foldl
        (fun a g =>
          a ++ (if g.isImplemented then checkUninitializedAccess g.flow fuel else []))
        acc =
      acc ++ gs.foldl
        (fun a g =>
          a ++ (if g.isImplemented then checkUninitializedAccess g.flow fuel else []))
        [] := by
    intro gs
    induction gs with
    | nil => intro acc; simp
    | cons g gs ih =>
        intro acc
        rw [List.foldl_cons, List.foldl_cons, ih, ih (List.nil ++ _)]
        simp
  unfold analysisDiagnostics
  rw [List.foldl_cons, aux]
  simp

theorem foldl_visit_errors (fuel : Nat) :
    ∀ (fns : List FunctionDefinition) (r : ErrorReporter),
      (fns.foldl (visitFunction fuel) r).errors =
        r.errors ++ (analysisDiagnostics fns fuel).map (fun d => ReportedError.mk false d) := by
  intro fns
  induction fns with
  | nil =>
      intro r
      simp [analysisDiagnostics]
  | cons fn fns ih =>
      intro r
      rw [List.foldl_cons, ih, visitFunction_errors, analysisDiagnostics_cons]
      simp

theorem analyze_errors (fuel : Nat) (fns : List FunctionDefinition) (r : ErrorReporter) :
    (analyze fns fuel r).2.errors =
      r.errors ++ (analysisDiagnostics fns fuel).map (fun d => ReportedError.mk false d) :=
  foldl_visit_errors fuel fns r

/-- A graph node either carries no occurrences (default node for an
unknown id) or is a member of the node list with matching id. -/
theorem node_found (g : CFG) (i : Nat) :
    (g.node i).variableOccurrences = [] ∨
      ((g.node i) ∈ g.nodes ∧ (g.node i).id = i) := by
  unfold CFG.node
  cases h : g.nodes.find? (fun n => n.id == i) with
  | none => exact Or.inl rfl
  | some n =>
      right
      constructor
      · exact List.mem_of_find?_eq_some h
      · have hp := List.find?_some h
        simpa using hp

/-! Every pending access originates in a block containing it from which
there is a CFG path to the node holding it; this is the substance of
revert-path suppression. -/

theorem propagateAll_pending_pred {g : CFG} {info : NodeInfo}
    {Q : Nat → VariableOccurrence → Prop} :
    ∀ (es : List Nat) (m : InfoMap) (st : List Nat),
      (∀ n, ∀ v ∈ (m.get n).uninitializedVariableAccesses, Q n v) →
      (∀ e ∈ es, ∀ v ∈ info.uninitializedVariableAccesses, Q e v) →
      ∀ n, ∀ v ∈ ((propagateAll g info es m st).1.get n).uninitializedVariableAccesses,
        Q n v := by
  intro es
  induction es with
  | nil => exact fun m st hm _ => hm
  | cons e es ih =>
      intro m st hm hi
      apply ih _ _ ?_ (fun x hx => hi x (List.mem_cons_of_mem e hx))
      intro n v hv
      by_cases hn : n = e
      · subst hn
        rw [InfoMap.get_put_self, propagateFrom_fst] at hv
        rcases mem_listUnion.mp hv with h1 | h1
        · exact hm n v h1
        · exact hi n (List.mem_cons_self n es) v h1
      · rw [InfoMap.get_put_ne _ _ hn] at hv
        exact hm n v hv

theorem stepNode_pending_origin {g : CFG} {s : AState}
    (h : ∀ n, ∀ v ∈ (s.infos.get n).uninitializedVariableAccesses,
        ∃ c, v ∈ (g.node c).variableOccurrences ∧ reaches g c n) :
    ∀ n, ∀ v ∈ ((stepNode g s).infos.get n).uninitializedVariableAccesses,
        ∃ c, v ∈ (g.node c).variableOccurrences ∧ reaches g c n := by
  cases hs : s.stack with
  | nil => rw [stepNode_nil hs]; exact h
  | cons current rest =>
      have hcur : ∀ v ∈ (transfer (s.infos.get current)
          (g.node current).variableOccurrences).uninitializedVariableAccesses,
          ∃ c, v ∈ (g.node c).variableOccurrences ∧ reaches g c current := by
        intro v hv
        rcases mem_pending_transfer hv with h1 | h1
        · exact h current v h1
        · exact ⟨current, h1, Relation.ReflTransGen.refl⟩
      rw [stepNode_eq hs]
      apply propagateAll_pending_pred
        (Q := fun n v => ∃ c, v ∈ (g.node c).variableOccurrences ∧ reaches g c n)
        _ _ _ ?_ ?_
      · intro n v hv
        by_cases hn : n = current
        · subst hn
          rw [InfoMap.get_put_self] at hv
          exact hcur v hv
        · rw [InfoMap.get_put_ne _ _ hn] at hv
          exact h n v hv
      · intro e he v hv
        obtain ⟨c, hc1, hc2⟩ := hcur v hv
        exact ⟨c, hc1, Relation.ReflTransGen.tail hc2 he⟩

theorem loopFuel_pending_origin (g : CFG) (fuel : Nat) :
    ∀ n, ∀ v ∈ ((loopFuel g fuel
        (initState g)).infos.get n).uninitializedVariableAccesses,
      ∃ c, v ∈ (g.node c).variableOccurrences ∧ reaches g c n := by
  apply loopFuel_preserve
    (P := fun s => ∀ n, ∀ v ∈ (s.infos.get n).uninitializedVariableAccesses,
      ∃ c, v ∈ (g.node c).variableOccurrences ∧ reaches g c n)
    (fun s hp => stepNode_pending_origin hp)
  intro n v hv
  simp [InfoMap.get] at hv

/-- In cfgRevert the access on the reverting branch lives only in block
1, and block 1 has no path to the exit node 3. -/
theorem cfgRevert_no_path :
    ∀ c, accessXRevert ∈ (cfgRevert.node c).variableOccurrences →
      ¬ reaches cfgRevert c cfgRevert.exitNode := by
  intro c hc
  have hc1 : c = 1 := by
    rcases node_found cfgRevert c with h | ⟨hmem, hid⟩
    · rw [h] at hc
      exact absurd hc (List.not_mem_nil _)
    · have hnodes : cfgRevert.nodes =
          [⟨0, [declX], [1, 2]⟩, ⟨1, [accessXRevert], []⟩,
            ⟨2, [], [3]⟩, ⟨3, [], []⟩] := rfl
      rw [hnodes] at hmem
      rcases List.mem_cons.mp hmem with h1 | hmem2
      · rw [h1] at hc
        exact absurd hc (by decide)
      rcases List.mem_cons.mp hmem2 with h1 | hmem3
      · rw [h1] at hid
        have h2 : (1 : Nat) = c := hid
        exact h2.symm
      rcases List.mem_cons.mp hmem3 with h1 | hmem4
      · rw [h1] at hc
        exact absurd hc (List.not_mem_nil _)
      rcases List.mem_cons.mp hmem4 with h1 | hmem5
      · rw [h1] at hc
        exact absurd hc (List.not_mem_nil _)
      · exact absurd hmem5 (List.not_mem_nil _)
  subst hc1
  intro hr
  rcases Relation.ReflTransGen.cases_head hr with h0 | ⟨c2, hc2, _⟩
  · exact absurd h0 (by decide)
  · have hex : (cfgRevert.node 1).exits = [] := rfl
    rw [edgeRel, hex] at hc2
    exact absurd hc2 (List.not_mem_nil _)

/-! The claims. -/

/-- C1, counterexample: the claim says that an occurrence lacking a
bound syntax node orders after an occurrence having one; in the code the
comparator returns true for (lacking, having), so the lacking occurrence
sorts in front, as the sorted output of a concrete pair shows. -/
theorem claim1_counterexample :
    occLess cexNoNode cexWithNode = true ∧ occLess cexWithNode cexNoNode = false ∧
      orderedAccesses [cexWithNode, cexNoNode] = [cexNoNode, cexWithNode] := by
  decide

/-- C1, amended: in the comparator of the diagnostic emitter, for every
pair of occurrences where exactly one has a bound syntax node, the one
lacking a bound syntax node orders before (not after) the one having
one; when both have one they compare by syntax node id ascending, with
ties broken by declaration id ascending and then kind ordinal
ascending, the same tie break being used when both lack one. -/
theorem claim1_comparator_order (l r : VariableOccurrence) :
    (l.occurrence = none → r.occurrence ≠ none →
      occLess l r = true ∧ occLess r l = false)
    ∧ (∀ lo ro, l.occurrence = some lo → r.occurrence = some ro →
        occLess l r = (if lo.id < ro.id then true
          else if ro.id < lo.id then false else declKindLess l r))
    ∧ (l.occurrence = none → r.occurrence = none →
        occLess l r = declKindLess l r)
    ∧ (declKindLess l r =
        (decide (l.declaration.id < r.declaration.id) ||
          (decide (l.declaration.id = r.declaration.id) &&
            decide (l.kind.ordinal < r.kind.ordinal)))) := by
  refine ⟨?_, ?_, ?_, ?_⟩
  · intro h1 h2
    cases hro : r.occurrence with
    | none => exact absurd hro h2
    | some ro => exact ⟨by simp [occLess, h1, hro], by simp [occLess, h1, hro]⟩
  · intro lo ro h1 h2
    simp [occLess, declKindLess, h1, h2]
  · intro h1 h2
    simp [occLess, declKindLess, h1, h2]
  · by_cases h1 : l.declaration.id < r.declaration.id
    · simp [declKindLess, h1]
    · by_cases h2 : r.declaration.id < l.declaration.id
      · have h3 : ¬ l.declaration.id = r.declaration.id := by omega
        simp [declKindLess, h1, h2, h3]
      · have h3 : l.declaration.id = r.declaration.id := by omega
        simp [declKindLess, h1, h2, h3]

/-- C1, witness: the amended ordering applied to a concrete pair where
only the right occurrence has a bound syntax node. -/
theorem claim1_witness :
    occLess cexNoNode cexWithNode = true ∧ occLess cexWithNode cexNoNode = false :=
  (claim1_comparator_order cexNoNode cexWithNode).1 rfl (by decide)

/-- C2: the analyzer is deterministic.  A second analyze call on the
same inputs appends exactly the same diagnostic batch to the reporter
as the first one and leaves the earlier entries untouched, and the
emitted diagnostic sequence of a function is independent of the
enumeration order of the pending-access set: any two enumerations that
are permutations of each other (with sort keys separating distinct
occurrences, as AST node identity does) are emitted identically. -/
theorem claim2_determinism (fns : List FunctionDefinition) (fuel : Nat)
    (r : ErrorReporter) (p1 p2 : List VariableOccurrence) :
    ((analyze fns fuel ((analyze fns fuel r).2)).2.errors =
      r.errors ++ (analysisDiagnostics fns fuel).map (fun d => ReportedError.mk false d)
        ++ (analysisDiagnostics fns fuel).map (fun d => ReportedError.mk false d))
    ∧ (p1.Perm p2 →
        (∀ x ∈ p1, ∀ y ∈ p1, sortKey x = sortKey y → x = y) →
        emitFrom p1 = emitFrom p2) := by
  constructor
  · rw [analyze_errors, analyze_errors]
  · exact fun hp hinj => emitFrom_perm hp hinj

/-- C2, witness: two opposite enumeration orders of a concrete two
element pending set are emitted identically, and the second run on an
empty syntax tree appends the same (empty) batch. -/
theorem claim2_witness :
    emitFrom [cexWithNode, cexNoNode] = emitFrom [cexNoNode, cexWithNode] :=
  (claim2_determinism [] 0 ⟨[]⟩ [cexWithNode, cexNoNode] [cexNoNode, cexWithNode]).2
    (by decide) (by decide)

/-- C3: once the worklist loop has reached its fixpoint, an occurrence
is reported exactly when it lies in the pending accesses of the exit
node, and the diagnostic sequence is precisely one type error per
reported occurrence; in particular, an access appearing only in blocks
from which no CFG path reaches the exit node is never reported
(revert-path suppression), because every pending access of the exit
node originates in a block containing it that reaches the exit. -/
theorem claim3_emission_iff (g : CFG) (fuel : Nat) (o : VariableOccurrence)
    (_hfix : (loopFuel g fuel (initState g)).stack = []) :
    (o ∈ reportedOccurrences g fuel ↔
      o ∈ ((loopFuel g fuel (initState g)).infos.get
        g.exitNode).uninitializedVariableAccesses)
    ∧ checkUninitializedAccess g fuel = (reportedOccurrences g fuel).map emitOne
    ∧ ((∀ c, o ∈ (g.node c).variableOccurrences → ¬ reaches g c g.exitNode) →
        o ∉ reportedOccurrences g fuel) := by
  have hiff : o ∈ reportedOccurrences g fuel ↔
      o ∈ ((loopFuel g fuel (initState g)).infos.get
        g.exitNode).uninitializedVariableAccesses := by
    unfold reportedOccurrences
    by_cases h : ((loopFuel g fuel (initState g)).infos.get
        g.exitNode).uninitializedVariableAccesses.isEmpty = true
    · rw [if_pos h]
      rw [List.isEmpty_iff] at h
      rw [h]
    · rw [if_neg h]
      exact List.mem_insertionSort occLE
  refine ⟨hiff, ?_, ?_⟩
  · unfold checkUninitializedAccess reportedOccurrences
    by_cases h : ((loopFuel g fuel (initState g)).infos.get
        g.exitNode).uninitializedVariableAccesses.isEmpty = true
    · rw [if_pos h, if_pos h]
      rfl
    · rw [if_neg h, if_neg h]
      rfl
  · intro hrev hmem
    obtain ⟨c, hc1, hc2⟩ :=
      loopFuel_pending_origin g fuel g.exitNode o (hiff.mp hmem)
    exact hrev c hc1 hc2

/-- C3, witness: on the straight-line graph the loop terminates and the
reported occurrences are exactly the exit pending accesses; on the
branching graph whose access sits on the reverting branch, the access
is suppressed. -/
theorem claim3_witness :
    (accessX ∈ reportedOccurrences cfgStraight 5 ↔
      accessX ∈ ((loopFuel cfgStraight 5 (initState cfgStraight)).infos.get
        cfgStraight.exitNode).uninitializedVariableAccesses)
    ∧ checkUninitializedAccess cfgStraight 5 =
        (reportedOccurrences cfgStraight 5).map emitOne
    ∧ accessXRevert ∉ reportedOccurrences cfgRevert 5 :=
  ⟨(claim3_emission_iff cfgStraight 5 accessX (by decide)).1,
    (claim3_emission_iff cfgStraight 5 accessX (by decide)).2.1,
    (claim3_emission_iff cfgRevert 5 accessXRevert (by decide)).2.2 cfgRevert_no_path⟩

/-- C4: the transfer function processes occurrences in program order
starting from the current NodeInfo value; a Declaration inserts the
declaration into the unassigned set, Assignment and InlineAssembly
remove it, and an Access leaves the unassigned set unchanged and
records the occurrence exactly when the declaration is currently
unassigned and its type is storage located. -/
theorem claim4_transfer_effects (info : NodeInfo) (v : VariableOccurrence)
    (occs : List VariableOccurrence) :
    transfer info (v :: occs) = transfer (transferStep info v) occs
    ∧ (v.kind = OccurrenceKind.Declaration →
        transferStep info v =
          ⟨listInsert info.unassignedVariables v.declaration,
            info.uninitializedVariableAccesses⟩)
    ∧ (v.kind = OccurrenceKind.Assignment →
        transferStep info v =
          ⟨info.unassignedVariables.erase v.declaration,
            info.uninitializedVariableAccesses⟩)
    ∧ (v.kind = OccurrenceKind.InlineAssembly →
        transferStep info v =
          ⟨info.unassignedVariables.erase v.declaration,
            info.uninitializedVariableAccesses⟩)
    ∧ (v.kind = OccurrenceKind.Access →
        (transferStep info v).unassignedVariables = info.unassignedVariables ∧
        (transferStep info v).uninitializedVariableAccesses =
          (if v.declaration ∈ info.unassignedVariables ∧ v.declaration.storage = true
            then listInsert info.uninitializedVariableAccesses v
            else info.uninitializedVariableAccesses)) := by
  refine ⟨rfl, ?_, ?_, ?_, ?_⟩
  · intro h
    unfold transferStep
    rw [h]
  · intro h
    unfold transferStep
    rw [h]
  · intro h
    unfold transferStep
    rw [h]
  · intro h
    constructor
    · unfold transferStep
      rw [h]
      dsimp only
      by_cases h1 : v.declaration ∈ info.unassignedVariables
      · by_cases h2 : v.declaration.storage = true
        · rw [if_pos h1, if_pos h2]
        · rw [if_pos h1, if_neg h2]
      · rw [if_neg h1]
    · unfold transferStep
      rw [h]
      dsimp only
      by_cases h1 : v.declaration ∈ info.unassignedVariables
      · by_cases h2 : v.declaration.storage = true
        · rw [if_pos h1, if_pos h2, if_pos ⟨h1, h2⟩]
        · rw [if_pos h1, if_neg h2, if_neg (fun hc => h2 hc.2)]
      · rw [if_neg h1, if_neg (fun hc => h1 hc.1)]

/-- C4, witness: the Access arm applied to a concrete state where x is
unassigned and storage located records the access and keeps the
unassigned set. -/
theorem claim4_witness :
    (transferStep ⟨[dX], []⟩ accessX).unassignedVariables = [dX] ∧
      (transferStep ⟨[dX], []⟩ accessX).uninitializedVariableAccesses = [accessX] := by
  obtain ⟨h1, h2⟩ := (claim4_transfer_effects ⟨[dX], []⟩ accessX []).2.2.2.2 rfl
  refine ⟨h1, ?_⟩
  rw [h2]
  decide

/-- C5, counterexample: when the shared reporter already holds an
error-level entry from an earlier stage, analyze on an empty tree emits
nothing during the analysis yet returns false, because the code checks
containsOnlyWarnings over the whole reporter content, not over the
entries emitted during this analysis. -/
theorem claim5_counterexample :
    (analyze [] 0 preloadedReporter).1 = false ∧
      (analyze [] 0 preloadedReporter).2.errors = preloadedReporter.errors :=
  ⟨rfl, rfl⟩

/-- C5, amended: analyze returns containsOnlyWarnings over the whole
accumulated reporter content; the analysis itself appends exactly its
own diagnostics, all error level, so when the reporter held only
warnings beforehand the return value is true exactly when the analysis
emitted no diagnostic. -/
theorem claim5_return_value (fns : List FunctionDefinition) (fuel : Nat)
    (r : ErrorReporter) :
    (analyze fns fuel r).1 = containsOnlyWarnings (analyze fns fuel r).2.errors
    ∧ (analyze fns fuel r).2.errors =
        r.errors ++ (analysisDiagnostics fns fuel).map (fun d => ReportedError.mk false d)
    ∧ (containsOnlyWarnings r.errors = true →
        ((analyze fns fuel r).1 = true ↔ analysisDiagnostics fns fuel = [])) := by
  refine ⟨rfl, analyze_errors fuel fns r, ?_⟩
  intro hr
  show containsOnlyWarnings (analyze fns fuel r).2.errors = true ↔ _
  rw [analyze_errors fuel fns r]
  unfold containsOnlyWarnings
  rw [List.all_append]
  unfold containsOnlyWarnings at hr
  rw [hr]
  simp only [Bool.true_and]
  cases h : analysisDiagnostics fns fuel with
  | nil => simp
  | cons d ds => simp

/-- C5, witness: starting from an empty reporter, the analysis of the
straight-line function reports one diagnostic and returns false. -/
theorem claim5_witness :
    (analyze fnsStraight 9 ⟨[]⟩).1 = true ↔ analysisDiagnostics fnsStraight 9 = [] :=
  (claim5_return_value fnsStraight 9 ⟨[]⟩).2.2 rfl

/-- C6, counterexample: a subsequent update during the worklist loop
does not preserve set inclusion on the unassigned component: after the
first iteration of cfgShrink the info of node 1 contains x, and the
second iteration (which runs the transfer of node 1 in place) removes
it. -/
theorem claim6_counterexample :
    dX ∈ ((loopFuel cfgShrink 1 (initState cfgShrink)).infos.get 1).unassignedVariables
    ∧ dX ∉ ((loopFuel cfgShrink 2 (initState cfgShrink)).infos.get 1).unassignedVariables := by
  decide

/-- C6, amended: during the worklist loop the pending-access component
of every NodeInfo only grows from one iteration to the next, and the
propagateFrom merge preserves set inclusion on both components; the
unassigned component, however, may shrink when the popped node applies
its own transfer in place (see the counterexample). -/
theorem claim6_monotonicity (g : CFG) (s : AState) (n : Nat) (self en : NodeInfo) :
    ((s.infos.get n).uninitializedVariableAccesses ⊆
      ((stepNode g s).infos.get n).uninitializedVariableAccesses)
    ∧ (self.unassignedVariables ⊆ (NodeInfo.propagateFrom self en).1.unassignedVariables)
    ∧ (self.uninitializedVariableAccesses ⊆
        (NodeInfo.propagateFrom self en).1.uninitializedVariableAccesses) :=
  ⟨stepNode_pending_mono s n,
    by rw [propagateFrom_fst]; exact subset_listUnion_left _ _,
    by rw [propagateFrom_fst]; exact subset_listUnion_left _ _⟩

/-- C6, witness: the pending access recorded after the first iteration
of the straight-line graph is still pending after the next
iteration. -/
theorem claim6_witness :
    accessX ∈ ((stepNode cfgStraight
      (loopFuel cfgStraight 1 (initState cfgStraight))).infos.get
        1).uninitializedVariableAccesses :=
  (claim6_monotonicity cfgStraight (loopFuel cfgStraight 1 (initState cfgStraight))
    1 ⟨[], []⟩ ⟨[], []⟩).1 (by decide)

/-- C7: the claim asserts termination for every finite CFG, and the
code violates it: on the concrete four-node graph oscCfg the worklist
stack is nonempty after any number of iterations, because the in-place
erase of the transfer lets two looping blocks keep re-growing each
other forever. -/
theorem claim7_nontermination :
    ∀ fuel, 0 < (loopFuel oscCfg fuel (initState oscCfg)).stack.length :=
  fun fuel => List.length_pos.mpr (osc_never_empty fuel)

/-- C8, counterexample: in a block reading Assignment of x, Declaration
of x, Access of x, the access is preceded by an assignment of the same
declaration in the same block and is nevertheless reported, because the
declaration re-inserts x after the assignment erased it. -/
theorem claim8_counterexample :
    (cfgRedecl.node 0).variableOccurrences = [assignX, declX, accessX2]
    ∧ assignX.kind = OccurrenceKind.Assignment
    ∧ assignX.declaration = accessX2.declaration
    ∧ (loopFuel cfgRedecl 5 (initState cfgRedecl)).stack = []
    ∧ accessX2 ∈ reportedOccurrences cfgRedecl 5 := by
  decide

/-- C8, amended: within a single block, an Access occurrence preceded
by an Assignment or InlineAssembly occurrence of the same declaration
with no intervening Declaration occurrence of that declaration is never
reported (the occurrence being a single object of its block, as C++
object identity guarantees). -/
theorem claim8_same_block_clearing (g : CFG) (fuel : Nat)
    (v a : VariableOccurrence) (nid : Nat)
    (l1 l2 l3 : List VariableOccurrence)
    (hblock : (g.node nid).variableOccurrences = l1 ++ a :: (l2 ++ v :: l3))
    (hkind : a.kind = OccurrenceKind.Assignment ∨ a.kind = OccurrenceKind.InlineAssembly)
    (hdecl : a.declaration = v.declaration)
    (hvkind : v.kind = OccurrenceKind.Access)
    (hnodecl : ∀ w ∈ l2, w.kind = OccurrenceKind.Declaration →
        w.declaration ≠ v.declaration)
    (honce : ∀ i, v ∈ (g.node i).variableOccurrences → i = nid)
    (hv1 : v ∉ l1) (hv2 : v ∉ l2) (hv3 : v ∉ l3) :
    v ∉ reportedOccurrences g fuel := by
  have hmain : ∀ n,
      v ∉ ((loopFuel g fuel (initState g)).infos.get n).uninitializedVariableAccesses := by
    apply loopFuel_vfree
    intro c info hwf hp
    by_cases hc : v ∈ (g.node c).variableOccurrences
    · have hcn : c = nid := honce c hc
      subst hcn
      rw [hblock]
      exact transfer_blocked hkind hdecl hvkind hnodecl hv1 hv2 hv3 info hwf hp
    · exact transfer_no_insert hc hp
  unfold reportedOccurrences
  by_cases h : ((loopFuel g fuel (initState g)).infos.get
      g.exitNode).uninitializedVariableAccesses.isEmpty = true
  · rw [if_pos h]
    simp
  · rw [if_neg h]
    intro hmem
    exact hmain g.exitNode ((List.mem_insertionSort occLE).mp hmem)

/-- C8, witness: in the block declare x, assign x, access x the access
follows the assignment with no redeclaration and is not reported. -/
theorem claim8_witness : accessX ∉ reportedOccurrences cfgAssigned 5 := by
  apply claim8_same_block_clearing cfgAssigned 5 accessX assignX 0 [declX] [] []
  · rfl
  · exact Or.inl rfl
  · rfl
  · rfl
  · exact fun w hw => absurd hw (List.not_mem_nil w)
  · intro i hi
    rcases node_found cfgAssigned i with h | ⟨hmem, hid⟩
    · rw [h] at hi
      exact absurd hi (List.not_mem_nil _)
    · have hcases : cfgAssigned.node i = ⟨0, [declX, assignX, accessX], [1]⟩ ∨
          cfgAssigned.node i = ⟨1, [], []⟩ := by
        have : cfgAssigned.nodes = [⟨0, [declX, assignX, accessX], [1]⟩, ⟨1, [], []⟩] := rfl
        rw [this] at hmem
        rcases List.mem_cons.mp hmem with h1 | h1
        · exact Or.inl h1
        · rcases List.mem_cons.mp h1 with h2 | h2
          · exact Or.inr h2
          · exact absurd h2 (List.not_mem_nil _)
      rcases hcases with hc | hc
      · rw [hc] at hid
        exact hid.symm
      · rw [hc] at hi
        exact absurd hi (by decide)
  · decide
  · decide
  · decide

/-- C9: no occurrence is ever reported twice in one function analysis:
the reported occurrence list is duplicate free for every graph and any
amount of fuel, so each occurrence yields at most one diagnostic. -/
theorem claim9_no_duplicate_reports (g : CFG) (fuel : Nat) :
    (reportedOccurrences g fuel).Nodup
    ∧ ∀ o : VariableOccurrence, (reportedOccurrences g fuel).count o ≤ 1 := by
  have hnodup : (reportedOccurrences g fuel).Nodup := by
    unfold reportedOccurrences
    by_cases h : ((loopFuel g fuel (initState g)).infos.get
        g.exitNode).uninitializedVariableAccesses.isEmpty = true
    · rw [if_pos h]
      exact List.nodup_nil
    · rw [if_neg h]
      exact ((List.perm_insertionSort occLE _).nodup_iff).mpr
        ((loopFuel_wf g fuel g.exitNode).2)
  exact ⟨hnodup, fun o => List.nodup_iff_count_le_one.mp hnodup o⟩

/-- C10, counterexample: the claim promises a normal return whenever
the exit is unreachable, but on oscCfg the exit node 3 is unreachable
from the entry and the worklist loop never finishes, so
checkUninitializedAccess never returns at all. -/
theorem claim10_counterexample :
    ¬ reaches oscCfg oscCfg.entry oscCfg.exitNode
    ∧ ∀ fuel, (loopFuel oscCfg fuel (initState oscCfg)).stack ≠ [] :=
  ⟨oscCfg_exit_unreachable, osc_never_empty⟩

/-- C10, amended: if the exit node is not reachable from the entry and
the worklist loop terminates, checkUninitializedAccess emits no
diagnostics: the NodeInfo of the exit is still the default-constructed
empty one when consulted, the emptiness guard skips the emission, and
no abort happens (the result holds for any amount of fuel). -/
theorem claim10_unreachable_exit (g : CFG) (fuel : Nat)
    (h : ¬ reaches g g.entry g.exitNode) :
    checkUninitializedAccess g fuel = []
    ∧ reportedOccurrences g fuel = []
    ∧ (loopFuel g fuel (initState g)).infos.get g.exitNode = ⟨[], []⟩ := by
  have hinfo := (loopFuel_reach_inv g fuel).2 g.exitNode h
  refine ⟨?_, ?_, hinfo⟩
  · unfold checkUninitializedAccess
    rw [hinfo]
    rfl
  · unfold reportedOccurrences
    rw [hinfo]
    rfl

/-- C10, witness: on the two-node graph with an unreachable exit,
nothing is emitted and the exit info stays empty. -/
theorem claim10_witness :
    checkUninitializedAccess cfgUnreachable 7 = []
    ∧ reportedOccurrences cfgUnreachable 7 = []
    ∧ (loopFuel cfgUnreachable 7 (initState cfgUnreachable)).infos.get
        cfgUnreachable.exitNode = ⟨[], []⟩ :=
  claim10_unreachable_exit cfgUnreachable 7 cfgUnreachable_exit_unreachable

end ControlFlowAnalyzerModel
